import Mathlib

/-!
Shallow embedding of `userbot/scaleutils/seam_carver.py` (seam-carving core).

An image is a list of rows; a row is a list of pixels; a pixel is a list of
integer channel values.  2-D numeric grids (energy maps, cumulative tables,
offset tables) are lists of lists of integers.  numpy's int64 arithmetic is
modelled by `Int` (the verified pipeline never approaches 2^63).  Code that
can raise (`min()` of an empty sequence, `np.delete` with an out-of-range
index, indexing a missing seam entry) is modelled with `Option`: `none`
means the Python raises.
-/

namespace SeamCarver

/-- A pixel: a list of integer channel values (commonly 3, but the channel
count is opaque to the core). -/
abbrev Pixel := List Int

/-- An image: a list of rows of pixels. -/
abbrev Image := List (List Pixel)

/-- A 2-D numeric grid (energy map, cumulative table, offset table). -/
abbrev Grid := List (List Int)

/-- Model of `np.roll(xs, -1)` along a list: element `i` of the result is element
`(i+1) % n` of the input. -/
def np_roll_m1 {α : Type} (xs : List α) : List α := xs.rotate 1

/-- Model of `np.roll(xs, 1)` along a list: element `i` of the result is element
`(i-1) % n` of the input. -/
def np_roll_p1 {α : Type} (xs : List α) : List α := xs.rotate (xs.length - 1)

/-- Source `dual_gradient_energy(x_0, x_1, y_0, y_1)`:
`sum(pow(x_0-x_1, 2) + pow(y_0-y_1, 2))`, the sum running over the channels
(the source transposes the arrays so that numpy's default-axis sum hits the
channel axis). -/
def dual_gradient_energy (x_0 x_1 y_0 y_1 : Pixel) : Int :=
  (List.zipWith (fun h v => h ^ 2 + v ^ 2)
    (List.zipWith (fun a b => a - b) x_0 x_1)
    (List.zipWith (fun a b => a - b) y_0 y_1)).sum

/-- Source `energy_map(img)`: rolls the image by one pixel in each of the four
directions and applies `dual_gradient_energy` pixelwise.
`x_0 = np.roll(img, -1, axis=1)`, `x_1 = np.roll(img, 1, axis=1)`,
`y_0 = np.roll(img, -1, axis=0)`, `y_1 = np.roll(img, 1, axis=0)`; the
transposes in the source only move the channel axis for the sum and are
absorbed into `dual_gradient_energy`. -/
def energy_map (img : Image) : Grid :=
  let x_0 := img.map np_roll_m1
  let x_1 := img.map np_roll_p1
  let y_0 := np_roll_m1 img
  let y_1 := np_roll_p1 img
  List.zipWith (fun (rx : List Pixel × List Pixel) (ry : List Pixel × List Pixel) =>
      List.zipWith (fun (px : Pixel × Pixel) (py : Pixel × Pixel) =>
          dual_gradient_energy px.1 px.2 py.1 py.2)
        (rx.1.zip rx.2) (ry.1.zip ry.2))
    (x_0.zip x_1) (y_0.zip y_1)

/-- The numpy slice `path_energies[i-1, max(j-1, 0) : j+2]` of the previous
cumulative row: with natural-number truncated subtraction, `j - 1` is
`max(j-1, 0)` and the slice keeps `j + 2 - (j - 1)` elements (2 when `j = 0`,
3 otherwise), clipped at the right edge by `take`. -/
def prev_window (prev : List Int) (j : Nat) : List Int :=
  (prev.drop (j - 1)).take (j + 2 - (j - 1))

/-- Source `least_energy = prev_energies.min()`.  The slice is nonempty whenever
`j < prev.length`, so the `getD 0` default is never reached on the verified
paths (numpy raises on an empty `min`). -/
def least_energy (prev : List Int) (j : Nat) : Int :=
  (prev_window prev j).min?.getD 0

/-- Source `paths[i][j] = np.where(prev_energies == least_energy)[0][0] - (1*(j != 0))`:
the first index of the minimum inside the slice, shifted so the result is the
x-offset of the chosen parent column relative to `j`. -/
def path_offset (prev : List Int) (j : Nat) : Int :=
  ((prev_window prev j).indexOf (least_energy prev j) : Int) -
    (if j ≠ 0 then 1 else 0)

/-- The inner loop body of `cumulative_energy` for one row `i ≥ 1`: given the
previous cumulative row and the energy row, produce the offsets row and the
cumulative row (`for j in range(width)`). -/
def ce_row (W : Nat) (prev erow : List Int) : List Int × List Int :=
  ((List.range W).map (fun j => path_offset prev j),
   (List.range W).map (fun j => erow.getD j 0 + least_energy prev j))

/-- The `for i in range(1, height)` loop of `cumulative_energy`, threading the
previous cumulative row through the remaining energy rows; returns the rows
`1 ..` of `paths` and of `path_energies`. -/
def ce_rows (W : Nat) (prev : List Int) : List (List Int) → Grid × Grid
  | [] => ([], [])
  | erow :: rest =>
    let row := ce_row W prev erow
    let rec_rows := ce_rows W row.2 rest
    (row.1 :: rec_rows.1, row.2 :: rec_rows.2)

/-- Source `cumulative_energy(energy)`: returns `(paths, path_energies)`.
`path_energies[0] = energy[0]`; `paths[0]` is a sentinel that is never read
(the source stores `np.arange(width) * np.nan` cast to int64; we store zeros).
An empty energy grid would make `path_energies[0] = energy[0]` index out of
bounds in the source; every verified call has height ≥ 1. -/
def cumulative_energy (energy : Grid) : Grid × Grid :=
  match energy with
  | [] => ([], [])
  | e0 :: rest =>
    let W := e0.length
    let rows := ce_rows W e0 rest
    (((List.range W).map (fun _ => (0 : Int))) :: rows.1, e0 :: rows.2)

/-- Source `seam_end(energy_totals) = list(energy_totals[-1]).index(min(energy_totals[-1]))`:
the leftmost index of the minimum of the last row.  `none` models the
`min()`-of-empty-sequence error. -/
def seam_end (energy_totals : Grid) : Option Nat :=
  match (energy_totals.getLastD []).min? with
  | none => none
  | some m => some ((energy_totals.getLastD []).indexOf m)

/-- The `for i in range(height-1, 0, -1)` loop of `find_seam`, building the
seam from the bottom row upward.  `i` is the current row, `cur` the current
column; the source appends then reverses, which is the same as prepending.
On the verified paths `cur` always lies in `[0, width)`, so reading
`paths[i][cur]` with `getD _ 0` agrees with the source's array indexing. -/
def fs_go (paths : Grid) : Nat → Int → List Int
  | 0, cur => [cur]
  | i + 1, cur =>
    (fs_go paths i (cur + (paths.getD (i + 1) []).getD cur.toNat 0)) ++ [cur]

/-- Source `find_seam(paths, end_x)`: walk the offset table upward from `end_x` at
the bottom row; the result is top-to-bottom, one column per row. -/
def find_seam (paths : Grid) (end_x : Int) : List Int :=
  fs_go paths (paths.length - 1) end_x

/-- Model of `np.delete(xs, i, axis=0)` for an integer index `i`: numpy wraps a
negative index by the length and raises `IndexError` (modelled by `none`)
when the index is out of range. -/
def np_delete {α : Type} (xs : List α) (i : Int) : Option (List α) :=
  if 0 ≤ i ∧ i < (xs.length : Int) then some (xs.eraseIdx i.toNat)
  else if -(xs.length : Int) ≤ i ∧ i < 0 then
    some (xs.eraseIdx (i + (xs.length : Int)).toNat)
  else none

/-- The list comprehension
`[np.delete(img[row], seam[row], axis=0) for row in range(height)]`:
evaluated row by row; a missing seam entry or an out-of-range delete raises
(`none`). -/
def remove_seam_go (img : Image) (seam : List Int) : List Nat → Option Image
  | [] => some []
  | r :: rs =>
    match seam.get? r with
    | none => none
    | some s =>
      match np_delete (img.getD r []) s with
      | none => none
      | some row =>
        match remove_seam_go img seam rs with
        | none => none
        | some rest => some (row :: rest)

/-- Source `remove_seam(img, seam)`: delete one pixel per row along the seam. -/
def remove_seam (img : Image) (seam : List Int) : Option Image :=
  remove_seam_go img seam (List.range img.length)

/-- One iteration of the `resize_image` loop body:
`e_map = energy_map(img); e_paths, e_totals = cumulative_energy(e_map);
seam = find_seam(e_paths, seam_end(e_totals)); img = remove_seam(img, seam)`. -/
def carve_once (img : Image) : Option Image :=
  let e_map := energy_map img
  let ce := cumulative_energy e_map
  match seam_end ce.2 with
  | none => none
  | some end_x => remove_seam img (find_seam ce.1 (end_x : Int))

/-- The `for _ in trange(cropped_pixels)` loop of `resize_image`, run `k`
times; an exception in any iteration aborts the whole call. -/
def resize_loop : Nat → Image → Option Image
  | 0, img => some img
  | k + 1, img =>
    match carve_once img with
    | none => none
    | some img2 => resize_loop k img2

/-- Source `resize_image(full_img, cropped_pixels)`.  `img = full_img.copy()` is a
value copy here; `trange` of a negative count is an empty iterator, hence
`Int.toNat`.  There is no validation of `cropped_pixels` or of the image
dimensions in the source. -/
def resize_image (full_img : Image) (cropped_pixels : Int) : Option Image :=
  resize_loop cropped_pixels.toNat full_img

/-- Spec-side description of the parent window of column `j` in the previous
row: the columns `{j-1, j, j+1} ∩ [0, W-1]`, in increasing order (see
`mem_window_cols`). -/
def window_cols (j W : Nat) : List Nat :=
  List.range' (j - 1) (min (j + 2) W - (j - 1))

/-- Heap-of-buffers model of `resize_image`, for the frame property: buffers
are identified by their index in a heap list, allocation appends a buffer.
`img = full_img.copy()` allocates a fresh buffer holding the caller's pixels,
and each iteration's `remove_seam` materialises its output in a fresh buffer
(`np.array` of the per-row `np.delete` results); the caller's buffer is only
ever read.  The loop rebinds the local pointer to the newest buffer; `none`
models an exception escaping, with the heap in its state at raise time. -/
def resize_loop_heap : Nat → List Image → Nat → List Image × Option Nat
  | 0, heap, imgPtr => (heap, some imgPtr)
  | k + 1, heap, imgPtr =>
    match carve_once (heap.getD imgPtr []) with
    | none => (heap, none)
    | some img2 => resize_loop_heap k (heap ++ [img2]) heap.length

/-- Heap-of-buffers model of a full `resize_image(full_img, cropped_pixels)`
call: the caller's image lives at `ptr`; the call first copies it into a
fresh buffer and then runs the loop.  Returns the final heap and a pointer
to the result buffer (`none` if the call raised). -/
def resize_image_heap (heap : List Image) (ptr : Nat) (cropped_pixels : Int) :
    List Image × Option Nat :=
  resize_loop_heap cropped_pixels.toNat (heap ++ [heap.getD ptr []]) heap.length

/-- A rectangular 2-D shape: `H` rows, each of length `W` (numpy's
`shape == (H, W)` for grids, `(H, W, ·)` for images). -/
def rect {α : Type} (g : List (List α)) (H W : Nat) : Prop :=
  g.length = H ∧ ∀ row ∈ g, row.length = W

/-- Every pixel of the image has exactly `C` channels. -/
def chans (img : Image) (C : Nat) : Prop :=
  ∀ row ∈ img, ∀ p ∈ row, p.length = C

instance {α : Type} (g : List (List α)) (H W : Nat) : Decidable (rect g H W) := by
  unfold rect; infer_instance

instance (img : Image) (C : Nat) : Decidable (chans img C) := by
  unfold chans; infer_instance

/-! ### Basic list facts -/

lemma int_min_spec (l : List Int) (a : Int) :
    l.min? = some a ↔ a ∈ l ∧ ∀ b ∈ l, a ≤ b :=
  have : Std.Antisymm (fun x1 x2 : Int => x1 ≤ x2) :=
    ⟨fun h1 h2 => Int.le_antisymm h1 h2⟩
  List.min?_eq_some_iff (fun x => le_refl x) (fun x y => min_choice x y)
    (fun x y z => le_min_iff)

lemma min_of_nonempty (l : List Int) (h : l ≠ []) :
    ∃ a, l.min? = some a := by
  cases l with
  | nil => exact absurd rfl h
  | cons x xs => exact ⟨_, List.min?_cons⟩

lemma indexOf_spec (l : List Int) (a : Int) (h : a ∈ l) :
    l.indexOf a < l.length ∧ l.getD (l.indexOf a) 0 = a ∧
      ∀ k < l.indexOf a, l.getD k 0 ≠ a := by
  induction l with
  | nil => simp at h
  | cons x xs ih =>
    by_cases hx : x = a
    · subst hx
      simp [List.indexOf_cons]
    · have hmem : a ∈ xs := by
        rcases List.mem_cons.mp h with h1 | h2
        · exact absurd h1.symm hx
        · exact h2
      obtain ⟨ih1, ih2, ih3⟩ := ih hmem
      have hidx : (x :: xs).indexOf a = xs.indexOf a + 1 := by
        simp [List.indexOf_cons, hx]
      refine ⟨by rw [hidx]; simp only [List.length_cons]; omega,
        by rw [hidx, List.getD_cons_succ]; exact ih2, ?_⟩
      intro k hk
      rw [hidx] at hk
      cases k with
      | zero => simpa using hx
      | succ n =>
        have : n < xs.indexOf a := by omega
        simpa using ih3 n this

lemma find?_map_indexOf (cols : List Nat) (f : Nat → Int) (v : Int)
    (h : v ∈ cols.map f) :
    cols.find? (fun k => f k == v) =
      some (cols.getD ((cols.map f).indexOf v) 0) := by
  induction cols with
  | nil => simp at h
  | cons c cs ih =>
    by_cases hc : f c = v
    · simp [List.find?, List.indexOf_cons, hc]
    · have hmem : v ∈ cs.map f := by
        rcases (by simpa using h : v = f c ∨ ∃ a ∈ cs, f a = v) with h1 | ⟨a, ha, hfa⟩
        · exact absurd h1.symm hc
        · exact List.mem_map.mpr ⟨a, ha, hfa⟩
      have hstep : ((c :: cs).map f).indexOf v = (cs.map f).indexOf v + 1 := by
        simp [List.indexOf_cons, hc]
      simp only [List.map_cons] at hstep
      rw [List.find?]
      have hcf : (f c == v) = false := by simp [hc]
      simp only [hcf, List.map_cons, hstep, List.getD_cons_succ]
      exact ih hmem

/-! ### The parent window and the per-cell DP step -/

lemma mem_window_cols {j W k : Nat} :
    k ∈ window_cols j W ↔ j - 1 ≤ k ∧ k ≤ j + 1 ∧ k < W := by
  unfold window_cols
  rw [List.mem_range'_1]
  omega

lemma self_mem_window_cols {j W : Nat} (hj : j < W) : j ∈ window_cols j W :=
  mem_window_cols.mpr ⟨by omega, by omega, hj⟩

lemma window_cols_length (j W : Nat) :
    (window_cols j W).length = min (j + 2) W - (j - 1) := by
  unfold window_cols
  rw [List.length_range']

lemma window_cols_getD (j W p : Nat) (hp : p < (window_cols j W).length) :
    (window_cols j W).getD p 0 = (j - 1) + p := by
  unfold window_cols at hp ⊢
  rw [List.getD_eq_getElem _ _ hp, List.getElem_range']
  omega

/-- The numpy slice of the previous row is exactly the previous row read at
the window columns, in increasing order. -/
lemma prev_window_eq_map (prev : List Int) (j : Nat) (hj : j < prev.length) :
    prev_window prev j =
      (window_cols j prev.length).map (fun k => prev.getD k 0) := by
  apply List.ext_getElem
  · rw [List.length_map, window_cols_length]
    unfold prev_window
    rw [List.length_take, List.length_drop]
    omega
  · intro p h1 h2
    have hlen : p < (window_cols j prev.length).length := by
      rw [List.length_map] at h2
      exact h2
    have hbound : (j - 1) + p < prev.length := by
      rw [window_cols_length] at hlen
      omega
    simp only [prev_window, List.getElem_take, List.getElem_drop, List.getElem_map,
      window_cols, List.getElem_range', one_mul]
    rw [List.getD_eq_getElem _ _ hbound]

lemma prev_window_ne_nil (prev : List Int) (j : Nat) (hj : j < prev.length) :
    prev_window prev j ≠ [] := by
  have hlen : (prev_window prev j).length = min (j + 2) prev.length - (j - 1) := by
    unfold prev_window
    rw [List.length_take, List.length_drop]
    omega
  intro hnil
  rw [hnil] at hlen
  simp at hlen
  omega

/-- The DP minimum: `least_energy prev j` is attained on the window and is a
lower bound for the previous row over the window. -/
lemma least_energy_spec (prev : List Int) (j : Nat) (hj : j < prev.length) :
    ((window_cols j prev.length).map (fun k => prev.getD k 0)).min? =
      some (least_energy prev j) := by
  obtain ⟨m, hm⟩ := min_of_nonempty _ (prev_window_ne_nil prev j hj)
  unfold least_energy
  rw [prev_window_eq_map prev j hj] at hm ⊢
  rw [hm]
  rfl

/-- The chosen parent column: `j + path_offset prev j` is the leftmost window
column attaining the window minimum, found by `find?` over the increasing
window column list. -/
lemma path_offset_spec (prev : List Int) (j : Nat) (hj : j < prev.length) :
    ∃ c : Nat,
      (window_cols j prev.length).find?
          (fun k => prev.getD k 0 == least_energy prev j) = some c ∧
      (j : Int) + path_offset prev j = (c : Int) ∧
      path_offset prev j = (c : Int) - (j : Int) ∧
      c ∈ window_cols j prev.length := by
  have hmin := least_energy_spec prev j hj
  have hmem : least_energy prev j ∈
      (window_cols j prev.length).map (fun k => prev.getD k 0) :=
    ((int_min_spec _ _).mp hmin).1
  have hfind := find?_map_indexOf (window_cols j prev.length)
    (fun k => prev.getD k 0) (least_energy prev j) hmem
  have hplen : ((window_cols j prev.length).map
      (fun k => prev.getD k 0)).indexOf (least_energy prev j) <
      (window_cols j prev.length).length := by
    have := (indexOf_spec _ _ hmem).1
    rwa [List.length_map] at this
  have hcval := window_cols_getD j prev.length _ hplen
  have hoff : path_offset prev j =
      ((((window_cols j prev.length).map (fun k => prev.getD k 0)).indexOf
        (least_energy prev j) : Nat) : Int) - (if j ≠ 0 then 1 else 0) := by
    unfold path_offset
    rw [prev_window_eq_map prev j hj]
  have hcmem : (window_cols j prev.length).getD
      (((window_cols j prev.length).map (fun k => prev.getD k 0)).indexOf
        (least_energy prev j)) 0 ∈ window_cols j prev.length := by
    rw [List.getD_eq_getElem _ _ hplen]
    exact List.getElem_mem _
  refine ⟨_, hfind, ?_, ?_, hcmem⟩
  · rw [hoff]
    by_cases h0 : j = 0
    · subst h0
      rw [if_neg (by simp)]
      omega
    · rw [if_pos h0]
      omega
  · rw [hoff]
    by_cases h0 : j = 0
    · subst h0
      rw [if_neg (by simp)]
      omega
    · rw [if_pos h0]
      omega

/-- Bounds on the stored offset: the parent column `j + offset` is a valid
column, the offset is one of `-1, 0, +1`; at the left edge it is one of
`0, +1` and at the right edge one of `-1, 0`. -/
lemma path_offset_bounds (prev : List Int) (j : Nat) (hj : j < prev.length) :
    0 ≤ (j : Int) + path_offset prev j ∧
      (j : Int) + path_offset prev j < (prev.length : Int) ∧
      -1 ≤ path_offset prev j ∧ path_offset prev j ≤ 1 ∧
      (j = 0 → 0 ≤ path_offset prev j) ∧
      (j = prev.length - 1 → path_offset prev j ≤ 0) := by
  obtain ⟨c, _, h1, h2, hcmem⟩ := path_offset_spec prev j hj
  have hc := mem_window_cols.mp hcmem
  omega

/-! ### Shapes -/

lemma rect_iff {α : Type} (g : List (List α)) (H W : Nat) :
    rect g H W ↔ g.length = H ∧ ∀ r, r < H → (g.getD r []).length = W := by
  unfold rect
  constructor
  · rintro ⟨hl, hrow⟩
    refine ⟨hl, fun r hr => ?_⟩
    have hrl : r < g.length := by omega
    rw [List.getD_eq_getElem _ _ hrl]
    exact hrow _ (List.getElem_mem _)
  · rintro ⟨hl, hrow⟩
    refine ⟨hl, fun row hrowmem => ?_⟩
    obtain ⟨r, hr, hgeq⟩ := List.getElem_of_mem hrowmem
    have := hrow r (by omega)
    rw [List.getD_eq_getElem _ _ hr, hgeq] at this
    exact this

lemma getD_map_range {α : Type} (W j : Nat) (f : Nat → α) (d : α) (hj : j < W) :
    ((List.range W).map f).getD j d = f j := by
  rw [List.getD_eq_getElem _ _ (by simpa using hj), List.getElem_map,
    List.getElem_range]

/-! ### The cumulative table, row by row -/

lemma ce_rows_length (W : Nat) (rest : List (List Int)) (prev : List Int) :
    (ce_rows W prev rest).1.length = rest.length ∧
    (ce_rows W prev rest).2.length = rest.length := by
  induction rest generalizing prev with
  | nil => simp [ce_rows]
  | cons erow rest2 ih =>
    simp only [ce_rows, List.length_cons]
    exact ⟨by rw [(ih _).1], by rw [(ih _).2]⟩

lemma ce_rows_row_mem (W : Nat) (rest : List (List Int)) (prev : List Int) :
    (∀ row ∈ (ce_rows W prev rest).1, row.length = W) ∧
    (∀ row ∈ (ce_rows W prev rest).2, row.length = W) := by
  induction rest generalizing prev with
  | nil => simp [ce_rows]
  | cons erow rest2 ih =>
    simp only [ce_rows]
    constructor
    · intro row hrow
      rcases List.mem_cons.mp hrow with h1 | h2
      · simp [h1, ce_row]
      · exact (ih _).1 row h2
    · intro row hrow
      rcases List.mem_cons.mp hrow with h1 | h2
      · simp [h1, ce_row]
      · exact (ih _).2 row h2

lemma ce_rows_chain (W : Nat) (rest : List (List Int)) (prev : List Int) :
    ∀ n, n < rest.length →
      (ce_rows W prev rest).2.getD n [] =
        (ce_row W ((prev :: (ce_rows W prev rest).2).getD n [])
          (rest.getD n [])).2 ∧
      (ce_rows W prev rest).1.getD n [] =
        (ce_row W ((prev :: (ce_rows W prev rest).2).getD n [])
          (rest.getD n [])).1 := by
  induction rest generalizing prev with
  | nil => intro n hn; simp at hn
  | cons erow rest2 ih =>
    intro n hn
    cases n with
    | zero => simp [ce_rows]
    | succ k =>
      have hk : k < rest2.length := by
        simp only [List.length_cons] at hn
        omega
      have := ih (ce_row W prev erow).2 k hk
      simpa only [ce_rows, List.getD_cons_succ] using this

lemma cumulative_energy_shape (energy : Grid) (H W : Nat)
    (h : rect energy H W) (hH : 1 ≤ H) :
    rect (cumulative_energy energy).1 H W ∧
    rect (cumulative_energy energy).2 H W := by
  obtain ⟨hl, hrow⟩ := h
  cases energy with
  | nil => simp at hl; omega
  | cons e0 rest =>
    have he0 : e0.length = W := hrow e0 (by simp)
    simp only [cumulative_energy, he0]
    simp only [List.length_cons] at hl
    constructor
    · refine ⟨by simp [(ce_rows_length W rest e0).1, hl], ?_⟩
      intro row hrowmem
      rcases List.mem_cons.mp hrowmem with h1 | h2
      · simp [h1]
      · exact (ce_rows_row_mem W rest e0).1 row h2
    · refine ⟨by simp [(ce_rows_length W rest e0).2, hl], ?_⟩
      intro row hrowmem
      rcases List.mem_cons.mp hrowmem with h1 | h2
      · simp [h1, he0]
      · exact (ce_rows_row_mem W rest e0).2 row h2

lemma cumulative_energy_row0 (energy : Grid) (hne : energy ≠ []) :
    (cumulative_energy energy).2.getD 0 [] = energy.getD 0 [] := by
  cases energy with
  | nil => exact absurd rfl hne
  | cons e0 rest => simp [cumulative_energy]

lemma cumulative_energy_step (energy : Grid) (H W : Nat) (h : rect energy H W)
    (hH : 1 ≤ H) : ∀ i, 1 ≤ i → i < H →
    (cumulative_energy energy).2.getD i [] =
      (ce_row W ((cumulative_energy energy).2.getD (i - 1) [])
        (energy.getD i [])).2 ∧
    (cumulative_energy energy).1.getD i [] =
      (ce_row W ((cumulative_energy energy).2.getD (i - 1) [])
        (energy.getD i [])).1 := by
  intro i hi1 hiH
  obtain ⟨hl, hrow⟩ := h
  cases energy with
  | nil => simp at hl; omega
  | cons e0 rest =>
    have he0 : e0.length = W := hrow e0 (by simp)
    simp only [cumulative_energy, he0]
    simp only [List.length_cons] at hl
    have hn : i - 1 < rest.length := by omega
    have hchain := ce_rows_chain W rest e0 (i - 1) hn
    have hi : i = (i - 1) + 1 := by omega
    rw [hi]
    simp only [List.getD_cons_succ]
    have hsub : ((i - 1) + 1) - 1 = i - 1 := by omega
    exact ⟨hchain.1, hchain.2⟩

/-- Entry form of the cumulative step: for `i ≥ 1` and `j < W`,
`path_energies[i][j] = energy[i][j] + least_energy` over the previous
cumulative row, and `paths[i][j]` is the stored offset. -/
lemma cumulative_energy_entries (energy : Grid) (H W : Nat)
    (h : rect energy H W) (hH : 1 ≤ H) : ∀ i j, 1 ≤ i → i < H → j < W →
    ((cumulative_energy energy).2.getD i []).getD j 0 =
      (energy.getD i []).getD j 0 +
        least_energy ((cumulative_energy energy).2.getD (i - 1) []) j ∧
    ((cumulative_energy energy).1.getD i []).getD j 0 =
      path_offset ((cumulative_energy energy).2.getD (i - 1) []) j := by
  intro i j hi1 hiH hj
  obtain ⟨hstep2, hstep1⟩ := cumulative_energy_step energy H W h hH i hi1 hiH
  rw [hstep2, hstep1]
  unfold ce_row
  constructor
  · rw [getD_map_range W j _ 0 hj]
  · rw [getD_map_range W j _ 0 hj]

lemma cumulative_prev_length (energy : Grid) (H W : Nat)
    (h : rect energy H W) (hH : 1 ≤ H) : ∀ i, i < H →
    ((cumulative_energy energy).2.getD i []).length = W := by
  intro i hi
  have := ((rect_iff _ H W).mp (cumulative_energy_shape energy H W h hH).2).2
  exact this i hi

/-! ### The seam end -/

lemma getLastD_eq_getD (l : List (List Int)) (h : l ≠ []) :
    l.getLastD [] = l.getD (l.length - 1) [] := by
  induction l with
  | nil => exact absurd rfl h
  | cons x xs ih =>
    cases xs with
    | nil => simp
    | cons y ys =>
      have hne : (y :: ys) ≠ [] := by simp
      have h1 : (x :: y :: ys).getLastD [] = (y :: ys).getLastD [] := by
        simp [List.getLastD]
      rw [h1, ih hne]
      have hlen : (x :: y :: ys).length - 1 = ((y :: ys).length - 1) + 1 := by
        simp
      rw [hlen, List.getD_cons_succ]

lemma seam_end_spec (pes : Grid) (W : Nat) (hne : pes ≠ [])
    (hlast : (pes.getLastD []).length = W) (hW : 1 ≤ W) :
    ∃ e, seam_end pes = some e ∧ e < W ∧
      (∀ k, k < W →
        (pes.getLastD []).getD e 0 ≤ (pes.getLastD []).getD k 0) ∧
      (∀ k, k < e →
        (pes.getLastD []).getD e 0 < (pes.getLastD []).getD k 0) := by
  have hnil : pes.getLastD [] ≠ [] := by
    intro hcon
    rw [hcon] at hlast
    simp at hlast
    omega
  obtain ⟨m, hm⟩ := min_of_nonempty _ hnil
  obtain ⟨hmem, hlb⟩ := (int_min_spec _ _).mp hm
  obtain ⟨hidx, hval, hleft⟩ := indexOf_spec _ _ hmem
  refine ⟨(pes.getLastD []).indexOf m, ?_, by omega, ?_, ?_⟩
  · unfold seam_end
    rw [hm]
  · intro k hk
    rw [hval]
    refine hlb _ ?_
    rw [List.getD_eq_getElem _ _ (by omega)]
    exact List.getElem_mem _
  · intro k hk
    have hne2 := hleft k hk
    have hle : m ≤ (pes.getLastD []).getD k 0 := by
      refine hlb _ ?_
      rw [List.getD_eq_getElem _ _ (by omega)]
      exact List.getElem_mem _
    rw [hval]
    omega

/-! ### Seam reconstruction -/

lemma getD_append_left {α : Type} (l1 l2 : List α) (i : Nat) (d : α)
    (h : i < l1.length) : (l1 ++ l2).getD i d = l1.getD i d := by
  rw [List.getD_eq_getElem _ _ (by rw [List.length_append]; omega),
    List.getD_eq_getElem _ _ h, List.getElem_append_left h]

lemma fs_go_length (paths : Grid) : ∀ (i : Nat) (cur : Int),
    (fs_go paths i cur).length = i + 1 := by
  intro i
  induction i with
  | zero => intro cur; rfl
  | succ n ih =>
    intro cur
    simp only [fs_go, List.length_append, ih, List.length_singleton]

lemma fs_go_getD_last (paths : Grid) : ∀ (i : Nat) (cur : Int),
    (fs_go paths i cur).getD i 0 = cur := by
  intro i
  induction i with
  | zero => intro cur; rfl
  | succ n ih =>
    intro cur
    show (fs_go paths n (cur + (paths.getD (n + 1) []).getD cur.toNat 0)
      ++ [cur]).getD (n + 1) 0 = cur
    have hlen : (fs_go paths n (cur + (paths.getD (n + 1) []).getD cur.toNat 0)).length
        = n + 1 := fs_go_length paths n _
    have hb : n + 1 < ((fs_go paths n (cur + (paths.getD (n + 1) []).getD cur.toNat 0))
        ++ [cur]).length := by
      rw [List.length_append, hlen, List.length_singleton]
      omega
    rw [List.getD_eq_getElem _ _ hb, List.getElem_append_right (by omega)]
    simp [hlen]

lemma fs_go_getD_rec (paths : Grid) : ∀ (i : Nat) (cur : Int) (p : Nat), p < i →
    (fs_go paths i cur).getD p 0 =
      (fs_go paths i cur).getD (p + 1) 0 +
        (paths.getD (p + 1) []).getD
          ((fs_go paths i cur).getD (p + 1) 0).toNat 0 := by
  intro i
  induction i with
  | zero => intro cur p hp; omega
  | succ n ih =>
    intro cur p hp
    have hlen : (fs_go paths n (cur + (paths.getD (n + 1) []).getD cur.toNat 0)).length
        = n + 1 := fs_go_length paths n _
    show (fs_go paths n (cur + (paths.getD (n + 1) []).getD cur.toNat 0)
        ++ [cur]).getD p 0 =
      (fs_go paths n (cur + (paths.getD (n + 1) []).getD cur.toNat 0)
        ++ [cur]).getD (p + 1) 0 +
      (paths.getD (p + 1) []).getD
        (((fs_go paths n (cur + (paths.getD (n + 1) []).getD cur.toNat 0)
          ++ [cur]).getD (p + 1) 0)).toNat 0
    by_cases hpn : p < n
    · rw [getD_append_left _ _ p _ (by rw [hlen]; omega),
        getD_append_left _ _ (p + 1) _ (by rw [hlen]; omega)]
      exact ih _ p hpn
    · have hpeq : p = n := by omega
      rw [hpeq]
      rw [getD_append_left _ _ n _ (by rw [hlen]; omega)]
      have hlast2 : (fs_go paths n (cur + (paths.getD (n + 1) []).getD cur.toNat 0)
          ++ [cur]).getD (n + 1) 0 = cur := fs_go_getD_last paths (n + 1) cur
      rw [hlast2, fs_go_getD_last paths n _]

lemma fs_go_bounds (paths : Grid) (W : Nat)
    (hoff : ∀ i, 1 ≤ i → i < paths.length → ∀ j : Nat, j < W →
      0 ≤ (j : Int) + (paths.getD i []).getD j 0 ∧
      (j : Int) + (paths.getD i []).getD j 0 < (W : Int)) :
    ∀ i, i < paths.length → ∀ cur : Int, 0 ≤ cur → cur < (W : Int) →
      ∀ p, p ≤ i → 0 ≤ (fs_go paths i cur).getD p 0 ∧
        (fs_go paths i cur).getD p 0 < (W : Int) := by
  intro i
  induction i with
  | zero =>
    intro hi cur h0 hWc p hp
    have hp0 : p = 0 := by omega
    subst hp0
    show 0 ≤ [cur].getD 0 0 ∧ [cur].getD 0 0 < (W : Int)
    simpa using ⟨h0, hWc⟩
  | succ n ih =>
    intro hi cur h0 hWc p hp
    have hcurnat : (cur.toNat : Int) = cur := Int.toNat_of_nonneg h0
    have hcurW : cur.toNat < W := by omega
    have hnxt := hoff (n + 1) (by omega) hi cur.toNat hcurW
    rw [hcurnat] at hnxt
    have hlen : (fs_go paths n (cur + (paths.getD (n + 1) []).getD cur.toNat 0)).length
        = n + 1 := fs_go_length paths n _
    by_cases hpn : p ≤ n
    · show 0 ≤ (fs_go paths n (cur + (paths.getD (n + 1) []).getD cur.toNat 0)
          ++ [cur]).getD p 0 ∧
        (fs_go paths n (cur + (paths.getD (n + 1) []).getD cur.toNat 0)
          ++ [cur]).getD p 0 < (W : Int)
      rw [getD_append_left _ _ p _ (by rw [hlen]; omega)]
      exact ih (by omega) _ (by omega) (by omega) p hpn
    · have hpeq : p = n + 1 := by omega
      rw [hpeq, fs_go_getD_last paths (n + 1) cur]
      exact ⟨h0, hWc⟩

/-! ### Seam removal -/

lemma eraseIdx_eq_take_drop {α : Type} (l : List α) (i : Nat) :
    l.eraseIdx i = l.take i ++ l.drop (i + 1) := by
  induction l generalizing i with
  | nil => simp [List.eraseIdx]
  | cons x xs ih =>
    cases i with
    | zero => simp [List.eraseIdx]
    | succ n => simp [List.eraseIdx, ih]

lemma np_delete_in_range {α : Type} (xs : List α) (s : Int) (h0 : 0 ≤ s)
    (hs : s < (xs.length : Int)) :
    np_delete xs s = some (xs.eraseIdx s.toNat) := by
  unfold np_delete
  rw [if_pos ⟨h0, hs⟩]

lemma remove_seam_go_spec (img : Image) (seam : List Int) :
    ∀ idxs : List Nat,
      (∀ r ∈ idxs, r < seam.length ∧ 0 ≤ seam.getD r 0 ∧
        seam.getD r 0 < ((img.getD r []).length : Int)) →
      remove_seam_go img seam idxs =
        some (idxs.map
          (fun r => (img.getD r []).eraseIdx (seam.getD r 0).toNat)) := by
  intro idxs
  induction idxs with
  | nil => intro h; rfl
  | cons r rs ih =>
    intro h
    obtain ⟨hr, h0, hs⟩ := h r (by simp)
    have hidx : seam.get? r = some (seam.getD r 0) := by
      rw [List.get?_eq_getElem?, List.getElem?_eq_getElem hr,
        List.getD_eq_getElem _ _ hr]
    have hrest := ih (fun r2 hr2 => h r2 (by simp [hr2]))
    simp only [remove_seam_go, hidx, np_delete_in_range _ _ h0 hs, hrest,
      List.map_cons]

lemma remove_seam_spec (img : Image) (H W : Nat) (seam : List Int)
    (hrect : rect img H W) (hlen : seam.length = H)
    (hseam : ∀ r, r < H → 0 ≤ seam.getD r 0 ∧ seam.getD r 0 < (W : Int)) :
    remove_seam img seam =
      some ((List.range H).map
        (fun r => (img.getD r []).eraseIdx (seam.getD r 0).toNat)) := by
  have hidx := (rect_iff img H W).mp hrect
  unfold remove_seam
  rw [hidx.1]
  refine remove_seam_go_spec img seam (List.range H) ?_
  intro r hr
  have hrH : r < H := List.mem_range.mp hr
  refine ⟨by omega, (hseam r hrH).1, ?_⟩
  rw [hidx.2 r hrH]
  exact (hseam r hrH).2

lemma remove_seam_shape (img : Image) (H W : Nat) (seam : List Int)
    (hrect : rect img H W) (hlen : seam.length = H)
    (hseam : ∀ r, r < H → 0 ≤ seam.getD r 0 ∧ seam.getD r 0 < (W : Int)) :
    rect ((List.range H).map
      (fun r => (img.getD r []).eraseIdx (seam.getD r 0).toNat)) H (W - 1) := by
  have hidx := (rect_iff img H W).mp hrect
  rw [rect_iff]
  refine ⟨by simp, ?_⟩
  intro r hr
  rw [getD_map_range H r _ [] hr]
  have hrowlen : (img.getD r []).length = W := hidx.2 r hr
  have hsnat : (seam.getD r 0).toNat < W := by
    have := hseam r hr
    omega
  rw [List.length_eraseIdx, hrowlen, if_pos hsnat]

lemma mem_of_mem_eraseIdx {α : Type} (l : List α) (i : Nat) (x : α)
    (h : x ∈ l.eraseIdx i) : x ∈ l := by
  rw [eraseIdx_eq_take_drop] at h
  rcases List.mem_append.mp h with h1 | h2
  · exact (List.take_sublist i l).subset h1
  · exact (List.drop_sublist (i + 1) l).subset h2

lemma remove_seam_chans (img : Image) (H C : Nat) (seam : List Int)
    (hch : chans img C) :
    chans ((List.range H).map
      (fun r => (img.getD r []).eraseIdx (seam.getD r 0).toNat)) C := by
  intro row hrow p hp
  obtain ⟨r, hr, hreq⟩ := List.mem_map.mp hrow
  rw [← hreq] at hp
  have hpmem := mem_of_mem_eraseIdx _ _ _ hp
  by_cases hrl : r < img.length
  · have hrowmem : img.getD r [] ∈ img := by
      rw [List.getD_eq_getElem _ _ hrl]
      exact List.getElem_mem _
    exact hch _ hrowmem p hpmem
  · rw [List.getD_eq_default _ _ (by omega)] at hpmem
    simp at hpmem

/-! ### The full one-seam pipeline -/

lemma cumulative_offsets (energy : Grid) (H W : Nat) (h : rect energy H W)
    (hH : 1 ≤ H) (hW : 1 ≤ W) : ∀ i, 1 ≤ i → i < H → ∀ j : Nat, j < W →
    0 ≤ (j : Int) + ((cumulative_energy energy).1.getD i []).getD j 0 ∧
    (j : Int) + ((cumulative_energy energy).1.getD i []).getD j 0 < (W : Int) ∧
    -1 ≤ ((cumulative_energy energy).1.getD i []).getD j 0 ∧
    ((cumulative_energy energy).1.getD i []).getD j 0 ≤ 1 ∧
    (j = 0 → 0 ≤ ((cumulative_energy energy).1.getD i []).getD j 0) ∧
    (j = W - 1 → ((cumulative_energy energy).1.getD i []).getD j 0 ≤ 0) := by
  intro i hi1 hiH j hj
  have hentry := (cumulative_energy_entries energy H W h hH i j hi1 hiH hj).2
  have hprevlen : ((cumulative_energy energy).2.getD (i - 1) []).length = W :=
    cumulative_prev_length energy H W h hH (i - 1) (by omega)
  have hb := path_offset_bounds ((cumulative_energy energy).2.getD (i - 1) []) j
    (by omega)
  rw [hprevlen] at hb
  rw [hentry]
  exact ⟨hb.1, hb.2.1, hb.2.2.1, hb.2.2.2.1, hb.2.2.2.2.1, hb.2.2.2.2.2⟩

lemma pipeline_spec (energy : Grid) (H W : Nat) (h : rect energy H W)
    (hH : 1 ≤ H) (hW : 1 ≤ W) :
    ∃ e, seam_end (cumulative_energy energy).2 = some e ∧ e < W ∧
      (find_seam (cumulative_energy energy).1 (e : Int)).length = H ∧
      (∀ p, p < H →
        0 ≤ (find_seam (cumulative_energy energy).1 (e : Int)).getD p 0 ∧
        (find_seam (cumulative_energy energy).1 (e : Int)).getD p 0 < (W : Int)) ∧
      (∀ p, p + 1 < H →
        |(find_seam (cumulative_energy energy).1 (e : Int)).getD (p + 1) 0 -
          (find_seam (cumulative_energy energy).1 (e : Int)).getD p 0| ≤ 1) := by
  obtain ⟨hpaths, hpes⟩ := cumulative_energy_shape energy H W h hH
  have hpesne : (cumulative_energy energy).2 ≠ [] := by
    intro hcon
    have := hpes.1
    rw [hcon] at this
    simp at this
    omega
  have hlastlen : ((cumulative_energy energy).2.getLastD []).length = W := by
    rw [getLastD_eq_getD _ hpesne, hpes.1]
    exact ((rect_iff _ H W).mp hpes).2 (H - 1) (by omega)
  obtain ⟨e, he, heW, hmin, hleft⟩ :=
    seam_end_spec (cumulative_energy energy).2 W hpesne hlastlen hW
  have hplen : (cumulative_energy energy).1.length = H := hpaths.1
  have hofffull := cumulative_offsets energy H W h hH hW
  have hoff : ∀ i, 1 ≤ i → i < (cumulative_energy energy).1.length →
      ∀ j : Nat, j < W →
      0 ≤ (j : Int) + ((cumulative_energy energy).1.getD i []).getD j 0 ∧
      (j : Int) + ((cumulative_energy energy).1.getD i []).getD j 0 < (W : Int) := by
    intro i hi1 hiH j hj
    rw [hplen] at hiH
    exact ⟨(hofffull i hi1 hiH j hj).1, (hofffull i hi1 hiH j hj).2.1⟩
  have hfseq : find_seam (cumulative_energy energy).1 (e : Int) =
      fs_go (cumulative_energy energy).1 (H - 1) (e : Int) := by
    unfold find_seam
    rw [hplen]
  have hbnds := fs_go_bounds (cumulative_energy energy).1 W hoff (H - 1)
    (by omega) (e : Int) (by positivity) (by exact_mod_cast heW)
  refine ⟨e, he, heW, ?_, ?_, ?_⟩
  · rw [hfseq, fs_go_length]
    omega
  · intro p hp
    rw [hfseq]
    exact hbnds p (by omega)
  · intro p hp
    rw [hfseq]
    have hrec := fs_go_getD_rec (cumulative_energy energy).1 (H - 1) (e : Int) p
      (by omega)
    have hnext := hbnds (p + 1) (by omega)
    rw [← hfseq] at hnext
    have hnat : (((find_seam (cumulative_energy energy).1 (e : Int)).getD (p + 1)
        0).toNat : Int) =
        (find_seam (cumulative_energy energy).1 (e : Int)).getD (p + 1) 0 :=
      Int.toNat_of_nonneg hnext.1
    have hjW : ((find_seam (cumulative_energy energy).1 (e : Int)).getD (p + 1)
        0).toNat < W := by omega
    have hoffb := hofffull (p + 1) (by omega) (by omega) _ hjW
    rw [hnat] at hoffb
    rw [← hfseq] at hrec
    rw [← hfseq]
    rw [abs_le]
    constructor <;> omega

/-! ### The energy map -/

lemma getD_map {α β : Type} (f : α → β) (l : List α) (i : Nat) (d1 : α) (d : β)
    (h : i < l.length) : (l.map f).getD i d = f (l.getD i d1) := by
  rw [List.getD_eq_getElem _ _ (by rw [List.length_map]; omega),
    List.getD_eq_getElem _ _ h, List.getElem_map]

lemma getD_zip {α β : Type} (l1 : List α) (l2 : List β) (i : Nat) (d1 : α)
    (d2 : β) (h1 : i < l1.length) (h2 : i < l2.length) :
    (l1.zip l2).getD i (d1, d2) = (l1.getD i d1, l2.getD i d2) := by
  rw [List.getD_eq_getElem _ _ (by rw [List.length_zip]; omega),
    List.getD_eq_getElem _ _ h1, List.getD_eq_getElem _ _ h2, List.getElem_zip]

lemma getD_zipWith {α β γ : Type} (f : α → β → γ) (l1 : List α) (l2 : List β)
    (i : Nat) (d1 : α) (d2 : β) (d : γ) (h1 : i < l1.length)
    (h2 : i < l2.length) :
    (List.zipWith f l1 l2).getD i d = f (l1.getD i d1) (l2.getD i d2) := by
  rw [List.getD_eq_getElem _ _ (by rw [List.length_zipWith]; omega),
    List.getD_eq_getElem _ _ h1, List.getD_eq_getElem _ _ h2,
    List.getElem_zipWith]

lemma rotate_getD {α : Type} (l : List α) (n i : Nat) (d : α)
    (hi : i < l.length) :
    (l.rotate n).getD i d = l.getD ((i + n) % l.length) d := by
  have h1 : i < (l.rotate n).length := by rw [List.length_rotate]; exact hi
  have h2 : (i + n) % l.length < l.length := Nat.mod_lt _ (by omega)
  rw [List.getD_eq_getElem _ _ h1, List.getD_eq_getElem _ _ h2]
  have := List.get_rotate l n ⟨i, h1⟩
  simpa [List.get_eq_getElem] using this

lemma energy_map_row (img : Image) (H W : Nat) (hrect : rect img H W)
    (hH : 1 ≤ H) (r : Nat) (hr : r < H) :
    (energy_map img).getD r [] =
      List.zipWith (fun px py => dual_gradient_energy px.1 px.2 py.1 py.2)
        (((img.getD r []).rotate 1).zip
          ((img.getD r []).rotate ((img.getD r []).length - 1)))
        ((img.getD ((r + 1) % H) []).zip
          (img.getD ((r + (H - 1)) % H) [])) := by
  obtain ⟨hl, hrowf⟩ := (rect_iff img H W).mp hrect
  have hrl : r < img.length := by omega
  simp only [energy_map, np_roll_m1, np_roll_p1]
  rw [getD_zipWith _ _ _ r ([], []) ([], []) []
    (by rw [List.length_zip, List.length_map, List.length_map]; omega)
    (by rw [List.length_zip, List.length_rotate, List.length_rotate]; omega)]
  rw [getD_zip _ _ r [] [] (by rw [List.length_map]; omega)
    (by rw [List.length_map]; omega)]
  rw [getD_zip _ _ r [] [] (by rw [List.length_rotate]; omega)
    (by rw [List.length_rotate]; omega)]
  rw [getD_map _ _ r [] [] hrl, getD_map _ _ r [] [] hrl]
  rw [rotate_getD img 1 r [] hrl, rotate_getD img (img.length - 1) r [] hrl]
  rw [hl]
  rfl

lemma energy_map_shape (img : Image) (H W : Nat) (hrect : rect img H W)
    (hH : 1 ≤ H) : rect (energy_map img) H W := by
  obtain ⟨hl, hrowf⟩ := (rect_iff img H W).mp hrect
  rw [rect_iff]
  constructor
  · simp [energy_map, np_roll_m1, np_roll_p1, hl]
  · intro r hr
    rw [energy_map_row img H W hrect hH r hr]
    rw [List.length_zipWith, List.length_zip, List.length_zip,
      List.length_rotate, List.length_rotate]
    have h1 : (img.getD r []).length = W := hrowf r hr
    have h2 : (img.getD ((r + 1) % H) []).length = W :=
      hrowf _ (Nat.mod_lt _ (by omega))
    have h3 : (img.getD ((r + (H - 1)) % H) []).length = W :=
      hrowf _ (Nat.mod_lt _ (by omega))
    rw [h1, h2, h3]
    simp

lemma energy_map_entry (img : Image) (H W : Nat) (hrect : rect img H W)
    (hH : 1 ≤ H) (hW : 1 ≤ W) (r c : Nat) (hr : r < H) (hc : c < W) :
    ((energy_map img).getD r []).getD c 0 =
      dual_gradient_energy
        ((img.getD r []).getD ((c + 1) % W) [])
        ((img.getD r []).getD ((c + (W - 1)) % W) [])
        ((img.getD ((r + 1) % H) []).getD c [])
        ((img.getD ((r + (H - 1)) % H) []).getD c []) := by
  obtain ⟨hl, hrowf⟩ := (rect_iff img H W).mp hrect
  have h1 : (img.getD r []).length = W := hrowf r hr
  have h2 : (img.getD ((r + 1) % H) []).length = W :=
    hrowf _ (Nat.mod_lt _ (by omega))
  have h3 : (img.getD ((r + (H - 1)) % H) []).length = W :=
    hrowf _ (Nat.mod_lt _ (by omega))
  rw [energy_map_row img H W hrect hH r hr]
  rw [getD_zipWith _ _ _ c ([], []) ([], []) 0
    (by rw [List.length_zip, List.length_rotate, List.length_rotate, h1]; omega)
    (by rw [List.length_zip, h2, h3]; omega)]
  rw [getD_zip _ _ c [] [] (by rw [List.length_rotate, h1]; omega)
    (by rw [List.length_rotate, h1]; omega)]
  rw [getD_zip _ _ c [] [] (by omega) (by omega)]
  rw [rotate_getD _ 1 c [] (by omega), rotate_getD _ _ c [] (by omega)]
  rw [h1]

/-! ### One carve step and the resize loop -/

lemma carve_once_spec (img : Image) (H W C : Nat) (hrect : rect img H W)
    (hch : chans img C) (hH : 1 ≤ H) (hW : 1 ≤ W) :
    ∃ out, carve_once img = some out ∧ rect out H (W - 1) ∧ chans out C := by
  have hemap := energy_map_shape img H W hrect hH
  obtain ⟨e, he, heW, hslen, hsb, _⟩ :=
    pipeline_spec (energy_map img) H W hemap hH hW
  have hrs := remove_seam_spec img H W
    (find_seam (cumulative_energy (energy_map img)).1 (e : Int)) hrect hslen hsb
  refine ⟨_, ?_, remove_seam_shape img H W _ hrect hslen hsb,
    remove_seam_chans img H C _ hch⟩
  show carve_once img = some _
  simp only [carve_once]
  rw [he]
  exact hrs

lemma resize_loop_spec : ∀ (k : Nat) (img : Image) (H w C : Nat),
    rect img H w → chans img C → 1 ≤ H → k ≤ w →
    ∃ out, resize_loop k img = some out ∧ rect out H (w - k) ∧ chans out C := by
  intro k
  induction k with
  | zero =>
    intro img H w C hrect hch hH hk
    exact ⟨img, rfl, by simpa using hrect, hch⟩
  | succ n ih =>
    intro img H w C hrect hch hH hk
    have hW : 1 ≤ w := by omega
    obtain ⟨mid, hmid, hmidrect, hmidch⟩ :=
      carve_once_spec img H w C hrect hch hH hW
    obtain ⟨out, hout, houtrect, houtch⟩ :=
      ih mid H (w - 1) C hmidrect hmidch hH (by omega)
    have hsub : w - 1 - n = w - (n + 1) := by omega
    rw [hsub] at houtrect
    refine ⟨out, ?_, houtrect, houtch⟩
    show resize_loop (n + 1) img = some out
    simp only [resize_loop]
    rw [hmid]
    exact hout

/-! ### The buffer heap model -/

lemma getD_snoc_self {α : Type} (l : List α) (x : α) (d : α) :
    (l ++ [x]).getD l.length d = x := by
  rw [List.getD_eq_getElem _ _ (by simp)]
  rw [List.getElem_append_right (le_refl _)]
  simp

lemma resize_loop_heap_frame : ∀ (k : Nat) (heap : List Image) (p q : Nat),
    q < heap.length →
    ((resize_loop_heap k heap p).1).getD q [] = heap.getD q [] := by
  intro k
  induction k with
  | zero => intro heap p q hq; rfl
  | succ n ih =>
    intro heap p q hq
    cases hc : carve_once (heap.getD p []) with
    | none => simp only [resize_loop_heap, hc]
    | some img2 =>
      simp only [resize_loop_heap, hc]
      rw [ih (heap ++ [img2]) heap.length q (by simp; omega)]
      exact getD_append_left _ _ _ _ hq

lemma resize_loop_heap_correct : ∀ (k : Nat) (heap : List Image) (p : Nat),
    p < heap.length →
    ((resize_loop_heap k heap p).2).map
        (fun q => (resize_loop_heap k heap p).1.getD q []) =
      resize_loop k (heap.getD p []) := by
  intro k
  induction k with
  | zero =>
    intro heap p hp
    simp [resize_loop_heap, resize_loop]
  | succ n ih =>
    intro heap p hp
    cases hc : carve_once (heap.getD p []) with
    | none =>
      simp only [resize_loop_heap, hc, resize_loop]
      rfl
    | some img2 =>
      simp only [resize_loop_heap, hc, resize_loop]
      have hplen : heap.length < (heap ++ [img2]).length := by simp
      have hval : (heap ++ [img2]).getD heap.length [] = img2 :=
        getD_snoc_self heap img2 []
      have := ih (heap ++ [img2]) heap.length hplen
      rw [hval] at this
      exact this

/-! ### Channel sums -/

lemma sum_map_add (l : List Nat) (f g : Nat → Int) :
    (l.map (fun x => f x + g x)).sum = (l.map f).sum + (l.map g).sum := by
  induction l with
  | nil => simp
  | cons x xs ih =>
    simp only [List.map_cons, List.sum_cons, ih]
    ring

lemma zipWith_eq_map_range (g : Int → Int → Int) (p q : Pixel) (C : Nat)
    (hp : p.length = C) (hq : q.length = C) :
    List.zipWith g p q =
      (List.range C).map (fun ch => g (p.getD ch 0) (q.getD ch 0)) := by
  apply List.ext_getElem
  · rw [List.length_zipWith, List.length_map, List.length_range, hp, hq]
    simp
  · intro n h1 h2
    rw [List.length_zipWith, hp, hq] at h1
    rw [List.getElem_zipWith, List.getElem_map, List.getElem_range]
    rw [List.getD_eq_getElem _ _ (by omega), List.getD_eq_getElem _ _ (by omega)]

lemma dual_gradient_energy_eq (C : Nat) (x0 x1 y0 y1 : Pixel)
    (h0 : x0.length = C) (h1 : x1.length = C) (h2 : y0.length = C)
    (h3 : y1.length = C) :
    dual_gradient_energy x0 x1 y0 y1 =
      ((List.range C).map (fun ch => (x0.getD ch 0 - x1.getD ch 0) ^ 2)).sum +
      ((List.range C).map (fun ch => (y0.getD ch 0 - y1.getD ch 0) ^ 2)).sum := by
  unfold dual_gradient_energy
  rw [zipWith_eq_map_range _ x0 x1 C h0 h1, zipWith_eq_map_range _ y0 y1 C h2 h3]
  rw [zipWith_eq_map_range _ _ _ C (by simp) (by simp)]
  have hcongr : ∀ ch ∈ List.range C,
      ((List.range C).map (fun c2 => x0.getD c2 0 - x1.getD c2 0)).getD ch 0 ^ 2 +
        ((List.range C).map (fun c2 => y0.getD c2 0 - y1.getD c2 0)).getD ch 0 ^ 2 =
      (x0.getD ch 0 - x1.getD ch 0) ^ 2 + (y0.getD ch 0 - y1.getD ch 0) ^ 2 := by
    intro ch hch
    have hchC : ch < C := List.mem_range.mp hch
    rw [getD_map_range C ch _ 0 hchC, getD_map_range C ch _ 0 hchC]
  rw [List.map_congr_left hcongr]
  rw [sum_map_add (List.range C) (fun ch => (x0.getD ch 0 - x1.getD ch 0) ^ 2)
    (fun ch => (y0.getD ch 0 - y1.getD ch 0) ^ 2)]

/-! ### Claim theorems -/

/-- Claim C1: for every energy grid of height `H ≥ 1` and width `W ≥ 1`,
`cumulative_energy` returns `(paths, path_energies)` such that row 0 of
`path_energies` equals row 0 of the energy grid, and for every row
`1 ≤ i < H` and column `j < W`: `path_energies[i][j] = energy[i][j] + m`,
where `m` is the minimum of `path_energies[i-1]` over the window
`{j-1, j, j+1} ∩ [0, W-1]` (`window_cols j W`; no wrap-around), the chosen
parent column is the leftmost (lowest-index) column attaining `m` (the first
hit of `find?` over the increasing window column list), and
`paths[i][j] = chosen_column - j`. -/
theorem claim_C1 (energy : Grid) (H W : Nat) (hrect : rect energy H W)
    (hH : 1 ≤ H) (hW : 1 ≤ W) :
    (cumulative_energy energy).2.getD 0 [] = energy.getD 0 [] ∧
    ∀ i j, 1 ≤ i → i < H → j < W →
      ∃ m, ((window_cols j W).map
          (fun k => ((cumulative_energy energy).2.getD (i - 1) []).getD k 0)).min?
            = some m ∧
        ((cumulative_energy energy).2.getD i []).getD j 0 =
          (energy.getD i []).getD j 0 + m ∧
        ∃ c, (window_cols j W).find?
            (fun k => ((cumulative_energy energy).2.getD (i - 1) []).getD k 0
              == m) = some c ∧
          ((cumulative_energy energy).1.getD i []).getD j 0 =
            (c : Int) - (j : Int) := by
  have hne : energy ≠ [] := by
    intro hcon
    rw [hcon] at hrect
    have := hrect.1
    simp at this
    omega
  refine ⟨cumulative_energy_row0 energy hne, ?_⟩
  intro i j hi1 hiH hj
  have hprevlen : ((cumulative_energy energy).2.getD (i - 1) []).length = W :=
    cumulative_prev_length energy H W hrect hH (i - 1) (by omega)
  obtain ⟨hpe, hpa⟩ :=
    cumulative_energy_entries energy H W hrect hH i j hi1 hiH hj
  have hmin := least_energy_spec ((cumulative_energy energy).2.getD (i - 1) []) j
    (by omega)
  rw [hprevlen] at hmin
  obtain ⟨c, hfind, hsum, hsub, hcmem⟩ :=
    path_offset_spec ((cumulative_energy energy).2.getD (i - 1) []) j (by omega)
  rw [hprevlen] at hfind
  refine ⟨least_energy ((cumulative_energy energy).2.getD (i - 1) []) j, hmin,
    by rw [hpe], c, hfind, ?_⟩
  rw [hpa]
  exact hsub

/-- Witness for C1 at the concrete 2-by-2 energy grid `[[1, 2], [0, 5]]`. -/
theorem claim_C1_witness :
    (cumulative_energy [[1, 2], [0, 5]]).2.getD 0 [] =
      ([[1, 2], [0, 5]] : Grid).getD 0 [] ∧
    ∀ i j, 1 ≤ i → i < 2 → j < 2 →
      ∃ m, ((window_cols j 2).map
          (fun k => ((cumulative_energy [[1, 2], [0, 5]]).2.getD (i - 1) []).getD
            k 0)).min? = some m ∧
        ((cumulative_energy [[1, 2], [0, 5]]).2.getD i []).getD j 0 =
          (([[1, 2], [0, 5]] : Grid).getD i []).getD j 0 + m ∧
        ∃ c, (window_cols j 2).find?
            (fun k => ((cumulative_energy [[1, 2], [0, 5]]).2.getD (i - 1)
              []).getD k 0 == m) = some c ∧
          ((cumulative_energy [[1, 2], [0, 5]]).1.getD i []).getD j 0 =
            (c : Int) - (j : Int) :=
  claim_C1 [[1, 2], [0, 5]] 2 2 (by decide) (by decide) (by decide)

/-- Claim C2: for every `H ≥ 1` by `W ≥ 1` image with `C` channels per pixel,
`energy_map` returns an `H`-by-`W` grid whose entry at `(r, c)` is the sum
over channels of `(pixel(r, (c-1) mod W) - pixel(r, (c+1) mod W))²` plus the
sum over channels of `(pixel((r-1) mod H, c) - pixel((r+1) mod H, c))²`,
i.e. neighbour lookup wraps toroidally at all four edges (`(c-1) mod W` is
written `(c + (W-1)) % W` in ℕ). -/
theorem claim_C2 (img : Image) (H W C : Nat) (hrect : rect img H W)
    (hch : chans img C) (hH : 1 ≤ H) (hW : 1 ≤ W) :
    rect (energy_map img) H W ∧
    ∀ r c, r < H → c < W →
      ((energy_map img).getD r []).getD c 0 =
        ((List.range C).map (fun ch =>
          (((img.getD r []).getD ((c + (W - 1)) % W) []).getD ch 0 -
            ((img.getD r []).getD ((c + 1) % W) []).getD ch 0) ^ 2)).sum +
        ((List.range C).map (fun ch =>
          (((img.getD ((r + (H - 1)) % H) []).getD c []).getD ch 0 -
            ((img.getD ((r + 1) % H) []).getD c []).getD ch 0) ^ 2)).sum := by
  refine ⟨energy_map_shape img H W hrect hH, ?_⟩
  intro r c hr hc
  have hidx := (rect_iff img H W).mp hrect
  have px : ∀ rr cc : Nat, rr < H → cc < W →
      ((img.getD rr []).getD cc []).length = C := by
    intro rr cc hrr hcc
    have hrl : rr < img.length := by omega
    have hrowmem : img.getD rr [] ∈ img := by
      rw [List.getD_eq_getElem _ _ hrl]
      exact List.getElem_mem _
    have hcl : cc < (img.getD rr []).length := by
      rw [hidx.2 rr hrr]
      exact hcc
    have hpixmem : (img.getD rr []).getD cc [] ∈ img.getD rr [] := by
      rw [List.getD_eq_getElem _ _ hcl]
      exact List.getElem_mem _
    exact hch _ hrowmem _ hpixmem
  rw [energy_map_entry img H W hrect hH hW r c hr hc]
  rw [dual_gradient_energy_eq C _ _ _ _
    (px r ((c + 1) % W) hr (Nat.mod_lt _ (by omega)))
    (px r ((c + (W - 1)) % W) hr (Nat.mod_lt _ (by omega)))
    (px ((r + 1) % H) c (Nat.mod_lt _ (by omega)) hc)
    (px ((r + (H - 1)) % H) c (Nat.mod_lt _ (by omega)) hc)]
  congr 1
  · exact congrArg List.sum (List.map_congr_left (fun ch _ => by ring))
  · exact congrArg List.sum (List.map_congr_left (fun ch _ => by ring))

/-- Witness for C2 at the concrete 2-by-2 single-channel image
`[[[1], [2]], [[3], [4]]]`. -/
theorem claim_C2_witness :
    rect (energy_map [[[1], [2]], [[3], [4]]]) 2 2 ∧
    ∀ r c, r < 2 → c < 2 →
      ((energy_map [[[1], [2]], [[3], [4]]]).getD r []).getD c 0 =
        ((List.range 1).map (fun ch =>
          (((([[[1], [2]], [[3], [4]]] : Image).getD r []).getD
              ((c + (2 - 1)) % 2) []).getD ch 0 -
            ((([[[1], [2]], [[3], [4]]] : Image).getD r []).getD
              ((c + 1) % 2) []).getD ch 0) ^ 2)).sum +
        ((List.range 1).map (fun ch =>
          (((([[[1], [2]], [[3], [4]]] : Image).getD ((r + (2 - 1)) % 2)
              []).getD c []).getD ch 0 -
            ((([[[1], [2]], [[3], [4]]] : Image).getD ((r + 1) % 2) []).getD
              c []).getD ch 0) ^ 2)).sum :=
  claim_C2 [[[1], [2]], [[3], [4]]] 2 2 1 (by decide) (by decide) (by decide)
    (by decide)

/-- Claim C3: for every cumulative table and offset grid of shape `H × W`
with `H ≥ 1` (and a nonempty last row, `W ≥ 1`), `seam_end` returns the
leftmost column at which the last row of the cumulative table attains its
minimum, and `find_seam` with that end column returns a top-to-bottom seam
of length exactly `H` with `seam[H-1]` the end column and, for every
`i < H-1`, `seam[i] = seam[i+1] + OffsetGrid[i+1][seam[i+1]]`. -/
theorem claim_C3 (pes paths : Grid) (H W : Nat) (hpes : rect pes H W)
    (hpaths : rect paths H W) (hH : 1 ≤ H) (hW : 1 ≤ W) :
    ∃ e, seam_end pes = some e ∧ e < W ∧
      (∀ k, k < W →
        (pes.getD (H - 1) []).getD e 0 ≤ (pes.getD (H - 1) []).getD k 0) ∧
      (∀ k, k < e →
        (pes.getD (H - 1) []).getD e 0 < (pes.getD (H - 1) []).getD k 0) ∧
      (find_seam paths (e : Int)).length = H ∧
      (find_seam paths (e : Int)).getD (H - 1) 0 = (e : Int) ∧
      (∀ i, i < H - 1 →
        (find_seam paths (e : Int)).getD i 0 =
          (find_seam paths (e : Int)).getD (i + 1) 0 +
            (paths.getD (i + 1) []).getD
              ((find_seam paths (e : Int)).getD (i + 1) 0).toNat 0) := by
  have hpesne : pes ≠ [] := by
    intro hcon
    rw [hcon] at hpes
    have := hpes.1
    simp at this
    omega
  have hlastlen : (pes.getLastD []).length = W := by
    rw [getLastD_eq_getD _ hpesne, hpes.1]
    exact ((rect_iff _ H W).mp hpes).2 (H - 1) (by omega)
  obtain ⟨e, he, heW, hmin, hleft⟩ := seam_end_spec pes W hpesne hlastlen hW
  have hlastD : pes.getLastD [] = pes.getD (H - 1) [] := by
    rw [getLastD_eq_getD _ hpesne, hpes.1]
  rw [hlastD] at hmin hleft
  have hplen : paths.length = H := hpaths.1
  have hfs : find_seam paths (e : Int) = fs_go paths (H - 1) (e : Int) := by
    unfold find_seam
    rw [hplen]
  refine ⟨e, he, heW, hmin, hleft, ?_, ?_, ?_⟩
  · rw [hfs, fs_go_length]
    omega
  · rw [hfs, fs_go_getD_last]
  · intro i hi
    rw [hfs]
    exact fs_go_getD_rec paths (H - 1) (e : Int) i (by omega)

/-- Witness for C3 at the concrete tables `pes = [[5, 3], [2, 2]]`,
`paths = [[0, 0], [1, -1]]`. -/
theorem claim_C3_witness :
    ∃ e, seam_end [[5, 3], [2, 2]] = some e ∧ e < 2 ∧
      (∀ k, k < 2 →
        (([[5, 3], [2, 2]] : Grid).getD (2 - 1) []).getD e 0 ≤
          (([[5, 3], [2, 2]] : Grid).getD (2 - 1) []).getD k 0) ∧
      (∀ k, k < e →
        (([[5, 3], [2, 2]] : Grid).getD (2 - 1) []).getD e 0 <
          (([[5, 3], [2, 2]] : Grid).getD (2 - 1) []).getD k 0) ∧
      (find_seam [[0, 0], [1, -1]] (e : Int)).length = 2 ∧
      (find_seam [[0, 0], [1, -1]] (e : Int)).getD (2 - 1) 0 = (e : Int) ∧
      (∀ i, i < 2 - 1 →
        (find_seam [[0, 0], [1, -1]] (e : Int)).getD i 0 =
          (find_seam [[0, 0], [1, -1]] (e : Int)).getD (i + 1) 0 +
            (([[0, 0], [1, -1]] : Grid).getD (i + 1) []).getD
              ((find_seam [[0, 0], [1, -1]] (e : Int)).getD (i + 1) 0).toNat 0) :=
  claim_C3 [[5, 3], [2, 2]] [[0, 0], [1, -1]] 2 2 (by decide) (by decide)
    (by decide) (by decide)

/-- Claim C4: for every `H ≥ 1` by `W ≥ 1` image and every seam assigning one
valid column per row, `remove_seam` returns a new image of height `H` whose
row `r` equals the input row with exactly the pixel at column `seam[r]`
removed — the prefix before it kept, the pixels at higher columns shifted
left by one — so each output row has width `W - 1`, values and row order
preserved. -/
theorem claim_C4 (img : Image) (H W : Nat) (seam : List Int)
    (hrect : rect img H W) (hH : 1 ≤ H) (hW : 1 ≤ W)
    (hlen : seam.length = H)
    (hseam : ∀ r, r < H → 0 ≤ seam.getD r 0 ∧ seam.getD r 0 < (W : Int)) :
    ∃ out, remove_seam img seam = some out ∧ out.length = H ∧
      ∀ r, r < H →
        out.getD r [] =
          (img.getD r []).take (seam.getD r 0).toNat ++
            (img.getD r []).drop ((seam.getD r 0).toNat + 1) ∧
        (out.getD r []).length = W - 1 := by
  refine ⟨_, remove_seam_spec img H W seam hrect hlen hseam, by simp, ?_⟩
  intro r hr
  have h2 := ((rect_iff _ H (W - 1)).mp
    (remove_seam_shape img H W seam hrect hlen hseam)).2 r hr
  rw [getD_map_range H r _ [] hr] at h2
  rw [getD_map_range H r _ [] hr]
  exact ⟨eraseIdx_eq_take_drop _ _, h2⟩

/-- Witness for C4 at the image `[[[1], [2]], [[3], [4]]]` and the seam
`[0, 1]`. -/
theorem claim_C4_witness :
    ∃ out, remove_seam [[[1], [2]], [[3], [4]]] [0, 1] = some out ∧
      out.length = 2 ∧
      ∀ r, r < 2 →
        out.getD r [] =
          (([[[1], [2]], [[3], [4]]] : Image).getD r []).take
              (([0, 1] : List Int).getD r 0).toNat ++
            (([[[1], [2]], [[3], [4]]] : Image).getD r []).drop
              ((([0, 1] : List Int).getD r 0).toNat + 1) ∧
        (out.getD r []).length = 2 - 1 :=
  claim_C4 [[[1], [2]], [[3], [4]]] 2 2 [0, 1] (by decide) (by decide)
    (by decide) (by decide) (by decide)

/-- Claim C5: every seam produced by the pipeline — `find_seam` on the paths
from `cumulative_energy` with the end column from `seam_end` — satisfies the
adjacency invariant `|seam[i+1] - seam[i]| ≤ 1`. -/
theorem claim_C5 (energy : Grid) (H W : Nat) (hrect : rect energy H W)
    (hH : 1 ≤ H) (hW : 1 ≤ W) :
    ∃ e, seam_end (cumulative_energy energy).2 = some e ∧
      ∀ i, i + 1 < H →
        |(find_seam (cumulative_energy energy).1 (e : Int)).getD (i + 1) 0 -
          (find_seam (cumulative_energy energy).1 (e : Int)).getD i 0| ≤ 1 := by
  obtain ⟨e, he, _, _, _, hadj⟩ := pipeline_spec energy H W hrect hH hW
  exact ⟨e, he, hadj⟩

/-- Witness for C5 at the concrete energy grid `[[1, 2], [3, 4]]`. -/
theorem claim_C5_witness :
    ∃ e, seam_end (cumulative_energy [[1, 2], [3, 4]]).2 = some e ∧
      ∀ i, i + 1 < 2 →
        |(find_seam (cumulative_energy [[1, 2], [3, 4]]).1 (e : Int)).getD
            (i + 1) 0 -
          (find_seam (cumulative_energy [[1, 2], [3, 4]]).1 (e : Int)).getD
            i 0| ≤ 1 :=
  claim_C5 [[1, 2], [3, 4]] 2 2 (by decide) (by decide) (by decide)

/-- Claim C6: for every image of height `H ≥ 1` and width `W ≥ 1` with `C`
channels per pixel, and every `0 ≤ K < W`, `resize_image` succeeds and
returns an image of width `W - K`, unchanged height and channel count; in
particular `K = W - 1` succeeds with a 1-column-wide result. -/
theorem claim_C6 (img : Image) (H W C : Nat) (hrect : rect img H W)
    (hch : chans img C) (hH : 1 ≤ H) (hW : 1 ≤ W) (K : Nat) (hK : K < W) :
    ∃ out, resize_image img (K : Int) = some out ∧ out.length = H ∧
      (∀ row ∈ out, row.length = W - K) ∧ chans out C := by
  obtain ⟨out, hout, hrect2, hch2⟩ :=
    resize_loop_spec K img H W C hrect hch hH (by omega)
  refine ⟨out, ?_, hrect2.1, hrect2.2, hch2⟩
  show resize_image img (K : Int) = some out
  unfold resize_image
  rw [Int.toNat_natCast]
  exact hout

/-- Witness for C6 at the 1-by-2 single-channel image `[[[7], [9]]]` with
`K = 1` (the `K = width - 1` case). -/
theorem claim_C6_witness :
    ∃ out, resize_image [[[7], [9]]] ((1 : Nat) : Int) = some out ∧
      out.length = 1 ∧ (∀ row ∈ out, row.length = 2 - 1) ∧ chans out 1 :=
  claim_C6 [[[7], [9]]] 1 2 1 (by decide) (by decide) (by decide) (by decide)
    1 (by decide)

/-- Claim C7 counterexample: `resize_image` applied to a 1-by-1 image with a
removal count equal to the image width does not fail: it returns a zero-width
image, so there is no `InvalidCropCount` validation. -/
theorem claim_C7_counterexample :
    resize_image [[[0]]] 1 = some [[]] := by decide

/-- Claim C7 amended: `resize_image` performs no validation of the removal
count.  A negative count makes the loop run zero times and return the copied
image unchanged, and a count equal to the width succeeds, returning a
zero-width image of the same height, instead of failing with
`InvalidCropCount`. -/
theorem claim_C7_amended (img : Image) (H W C : Nat) (hrect : rect img H W)
    (hch : chans img C) (hH : 1 ≤ H) (hW : 1 ≤ W) :
    (∀ k : Int, k < 0 → resize_image img k = some img) ∧
    ∃ out, resize_image img (W : Int) = some out ∧ out.length = H ∧
      ∀ row ∈ out, row.length = 0 := by
  constructor
  · intro k hk
    unfold resize_image
    rw [Int.toNat_of_nonpos (by omega)]
    rfl
  · obtain ⟨out, hout, hrect2, _⟩ :=
      resize_loop_spec W img H W C hrect hch hH (le_refl W)
    refine ⟨out, ?_, hrect2.1, by simpa using hrect2.2⟩
    unfold resize_image
    rw [Int.toNat_natCast]
    exact hout

/-- Witness for the amended C7 at the 1-by-1 single-channel image
`[[[5]]]`. -/
theorem claim_C7_amended_witness :
    (∀ k : Int, k < 0 → resize_image [[[5]]] k = some [[[5]]]) ∧
    ∃ out, resize_image [[[5]]] ((1 : Nat) : Int) = some out ∧
      out.length = 1 ∧ ∀ row ∈ out, row.length = 0 :=
  claim_C7_amended [[[5]]] 1 1 1 (by decide) (by decide) (by decide)
    (by decide)

/-- Claim C8 counterexample: the empty image (height 0) with removal count 0
succeeds — `resize_image` returns the copied image — instead of failing with
`InvalidDimension`. -/
theorem claim_C8_counterexample :
    resize_image ([] : Image) 0 = some [] := rfl

/-- Claim C8 amended: `resize_image` performs no validation of the image
dimensions: with removal count 0 it returns (a copy of) the image unchanged
for every image, including zero-height and zero-width ones. -/
theorem claim_C8_amended (img : Image) : resize_image img 0 = some img := rfl

/-- Claim C9: a `resize_image` call never mutates the caller's input buffer.
In the buffer-heap model (`resize_image_heap`), every buffer that existed
before the call — in particular the caller's image at `ptr` — holds exactly
the same pixels afterwards, whether the call succeeds or raises, and on
success the result pointer dereferences to the value of the pure
`resize_image`. -/
theorem claim_C9 (heap : List Image) (ptr : Nat) (K : Int)
    (hptr : ptr < heap.length) :
    (∀ q, q < heap.length →
      ((resize_image_heap heap ptr K).1).getD q [] = heap.getD q []) ∧
    ((resize_image_heap heap ptr K).2).map
        (fun q => (resize_image_heap heap ptr K).1.getD q []) =
      resize_image (heap.getD ptr []) K := by
  constructor
  · intro q hq
    unfold resize_image_heap
    refine (resize_loop_heap_frame K.toNat (heap ++ [heap.getD ptr []])
      heap.length q (by rw [List.length_append]; omega)).trans ?_
    exact getD_append_left _ _ _ _ hq
  · unfold resize_image_heap resize_image
    have hp2 : heap.length < (heap ++ [heap.getD ptr []]).length := by simp
    have hcorr := resize_loop_heap_correct K.toNat (heap ++ [heap.getD ptr []])
      heap.length hp2
    rw [getD_snoc_self] at hcorr
    exact hcorr

/-- Witness for C9: a heap holding one 1-by-2 image, resized by one column. -/
theorem claim_C9_witness :
    (∀ q, q < 1 →
      ((resize_image_heap [[[[3], [4]]]] 0 1).1).getD q [] =
        ([[[[3], [4]]]] : List Image).getD q []) ∧
    ((resize_image_heap [[[[3], [4]]]] 0 1).2).map
        (fun q => (resize_image_heap [[[[3], [4]]]] 0 1).1.getD q []) =
      resize_image (([[[[3], [4]]]] : List Image).getD 0 []) 1 :=
  claim_C9 [[[[3], [4]]]] 0 1 (by decide)

/-- Claim C10: for every energy grid of height `H ≥ 1` and width `W ≥ 1`,
the stored offset at column 0 lies in `{0, +1}`, at column `W-1` in
`{-1, 0}`, and elsewhere in `{-1, 0, +1}`; every entry of the seam obtained
by `find_seam` on the paths with the `seam_end` column is a valid column
index in `[0, W-1]`, so the per-row deletion in `remove_seam` is always in
bounds (`remove_seam` succeeds on every `H × W` image). -/
theorem claim_C10 (energy : Grid) (H W : Nat) (hrect : rect energy H W)
    (hH : 1 ≤ H) (hW : 1 ≤ W) :
    (∀ i j, 1 ≤ i → i < H → j < W →
      (j = 0 → ((cumulative_energy energy).1.getD i []).getD j 0 = 0 ∨
        ((cumulative_energy energy).1.getD i []).getD j 0 = 1) ∧
      (j = W - 1 → ((cumulative_energy energy).1.getD i []).getD j 0 = -1 ∨
        ((cumulative_energy energy).1.getD i []).getD j 0 = 0) ∧
      (((cumulative_energy energy).1.getD i []).getD j 0 = -1 ∨
        ((cumulative_energy energy).1.getD i []).getD j 0 = 0 ∨
        ((cumulative_energy energy).1.getD i []).getD j 0 = 1)) ∧
    ∃ e, seam_end (cumulative_energy energy).2 = some e ∧
      (∀ p, p < H →
        0 ≤ (find_seam (cumulative_energy energy).1 (e : Int)).getD p 0 ∧
        (find_seam (cumulative_energy energy).1 (e : Int)).getD p 0 <
          (W : Int)) ∧
      ∀ img : Image, rect img H W →
        (remove_seam img
          (find_seam (cumulative_energy energy).1 (e : Int))).isSome = true := by
  have hoffs := cumulative_offsets energy H W hrect hH hW
  constructor
  · intro i j hi1 hiH hj
    have hb := hoffs i hi1 hiH j hj
    refine ⟨fun h0 => ?_, fun hlast => ?_, ?_⟩
    · have := hb.2.2.2.2.1 h0
      omega
    · have := hb.2.2.2.2.2 hlast
      omega
    · omega
  · obtain ⟨e, he, heW, hslen, hsb, _⟩ := pipeline_spec energy H W hrect hH hW
    refine ⟨e, he, hsb, ?_⟩
    intro img himg
    rw [remove_seam_spec img H W _ himg hslen hsb]
    rfl

/-- Witness for C10 at the concrete energy grid `[[1, 2], [3, 4]]`. -/
theorem claim_C10_witness :
    (∀ i j, 1 ≤ i → i < 2 → j < 2 →
      (j = 0 → ((cumulative_energy [[1, 2], [3, 4]]).1.getD i []).getD j 0 = 0 ∨
        ((cumulative_energy [[1, 2], [3, 4]]).1.getD i []).getD j 0 = 1) ∧
      (j = 2 - 1 →
        ((cumulative_energy [[1, 2], [3, 4]]).1.getD i []).getD j 0 = -1 ∨
        ((cumulative_energy [[1, 2], [3, 4]]).1.getD i []).getD j 0 = 0) ∧
      (((cumulative_energy [[1, 2], [3, 4]]).1.getD i []).getD j 0 = -1 ∨
        ((cumulative_energy [[1, 2], [3, 4]]).1.getD i []).getD j 0 = 0 ∨
        ((cumulative_energy [[1, 2], [3, 4]]).1.getD i []).getD j 0 = 1)) ∧
    ∃ e, seam_end (cumulative_energy [[1, 2], [3, 4]]).2 = some e ∧
      (∀ p, p < 2 →
        0 ≤ (find_seam (cumulative_energy [[1, 2], [3, 4]]).1 (e : Int)).getD
          p 0 ∧
        (find_seam (cumulative_energy [[1, 2], [3, 4]]).1 (e : Int)).getD p 0 <
          ((2 : Nat) : Int)) ∧
      ∀ img : Image, rect img 2 2 →
        (remove_seam img
          (find_seam (cumulative_energy [[1, 2], [3, 4]]).1
            (e : Int))).isSome = true :=
  claim_C10 [[1, 2], [3, 4]] 2 2 (by decide) (by decide) (by decide)

end SeamCarver
